import Mathlib

/-!
Verification of the luminous-particle-sphere asset pipeline: glyph
extraction (`getUniqueWords`), word-texture-atlas layout
(`createWordTextureAtlas`), particle-field generation by rejection
sampling (`generate`), and the vertex/fragment shader arithmetic
(`vertexDisplaced`, `fragAtlasUV`).

Modelling conventions:
* JavaScript strings are modelled as `List Char` (`split('')` yields the
  list of characters; all glyphs involved are BMP code points, one UTF-16
  code unit each).
* `Math.random()` is modelled as an ambient stream `S : ℕ → ℝ` of draws,
  consumed in program order via an index threaded through the generator
  state; the documented contract `0 ≤ S n < 1` is a hypothesis of the
  theorems that need it.
* IEEE-754 doubles are modelled as real numbers (`ℝ`); shader code that
  only performs field operations, `floor` and `mod` is modelled over `ℚ`.
* The generator's `while` loop is modelled with an explicit fuel
  parameter bounding the number of candidate draws; `generate … fuel =
  none` means the loop has not finished within `fuel` candidate draws.
  The source loop has no other exit and no error path at all.
* The atlas texture is abstracted to its list of `fillText` draw calls;
  the dynamic font sizing depends on the external text-measurement
  primitive (an excluded collaborator) and affects only pixel content,
  never the grid layout.
-/

/-! ## GlyphSet extractor (`getUniqueWords`, source lines 11–17) -/

/-- The character class of `text.replace(/[.,;，,。 \n\t]/g, '')`:
ASCII period, comma and semicolon, full-width comma and period, space,
newline, tab (the ASCII comma is listed twice in the regex). -/
def stripChar (c : Char) : Bool :=
  c = '.' || c = ',' || c = ';' || c = '，' || c = '。' || c = ' ' || c = '\n' || c = '\t'

/-- Modelled from the spec: the stripping class as the spec enumerates it
("commas, periods, their full-width forms, spaces, tabs, newlines") —
used only to compare with the source's `stripChar`, which additionally
strips the ASCII semicolon. -/
def specStripChar (c : Char) : Bool :=
  c = ',' || c = '.' || c = '，' || c = '。' || c = ' ' || c = '\t' || c = '\n'

/-- First-seen-order deduplication: the semantics of `[...new Set(xs)]`
(JavaScript `Set` iterates in insertion order and the first insertion of
a value wins). -/
def dedupFirstSeen : List Char → List Char
  | [] => []
  | c :: rest => c :: dedupFirstSeen (rest.filter (fun d => d != c))
termination_by l => l.length
decreasing_by
  simp only [List.length_cons]
  exact Nat.lt_succ_of_le (List.length_filter_le _ _)

/-- `getUniqueWords`: strip the punctuation/whitespace class, split into
individual characters, and de-duplicate keeping first occurrences. -/
def getUniqueWords (text : List Char) : List Char :=
  dedupFirstSeen (text.filter (fun c => !stripChar c))

/-! ## Word texture atlas (`createWordTextureAtlas`, source lines 20–78) -/

/-- `Math.ceil(Math.sqrt(count))` over the naturals. -/
def atlasCols (count : ℕ) : ℕ :=
  if Nat.sqrt count * Nat.sqrt count = count then Nat.sqrt count else Nat.sqrt count + 1

/-- `Math.ceil(count / cols)`.  For `count = 0` the source computes
`Math.ceil(0 / 0) = NaN`; the model's junk value is `⌈(0 : ℚ) / 0⌉₊ = 0`
(either way, not the `1` the spec describes). -/
def atlasRows (count : ℕ) : ℕ := ⌈(count : ℚ) / (atlasCols count : ℚ)⌉₊

/-- The cell of glyph ordinal `i`: `(i % cols, Math.floor(i / cols))`,
row 0 being the top row. -/
def atlasCell (cols i : ℕ) : ℕ × ℕ := (i % cols, i / cols)

/-- Result of the atlas builder, the texture abstracted to its draw
calls: one `(glyph, col, row)` per `ctx.fillText` invocation. -/
structure AtlasResult where
  cols : ℕ
  rows : ℕ
  drawCalls : List (Char × ℕ × ℕ)

/-- `createWordTextureAtlas`.  `hasDocument` models
`typeof document !== 'undefined'` and `hasContext` models
`canvas.getContext('2d') !== null`; both fallbacks return an empty
texture with a `1 × 1` grid. -/
def createWordTextureAtlas (hasDocument hasContext : Bool) (words : List Char) : AtlasResult :=
  if !hasDocument then ⟨1, 1, []⟩
  else
    let cols := atlasCols words.length
    let rows := atlasRows words.length
    if !hasContext then ⟨1, 1, []⟩
    else ⟨cols, rows, words.enum.map (fun p => (p.2, atlasCell cols p.1))⟩

/-! ## Shader arithmetic (source lines 92–173) -/

/-- A 3-component vector of reals (a GLSL `vec3`). -/
structure Vec3 where
  x : ℝ
  y : ℝ
  z : ℝ

/-- The three per-axis "organic movement" offsets of the vertex shader,
applied to `pos` before the breathing offset.  `time` here is the
already-scaled `uTime * 0.3`.  Note the sequential mutation in the
source: the `pos.y` phase reads the already-updated `pos.x`. -/
noncomputable def wiggleOnly (time : ℝ) (position aRandom : Vec3) : Vec3 :=
  let px := position.x + Real.sin (time + position.y * 1.5 + aRandom.x) * 0.05
  let py := position.y + Real.cos (time + px * 1.5 + aRandom.y) * 0.05
  let pz := position.z + Real.sin (time + position.z * 1.5 + aRandom.z) * 0.05
  ⟨px, py, pz⟩

/-- The displaced vertex position of the vertex shader: `time = uTime *
0.3`, the three wiggle offsets, then `pos += normal * (sin(time * 0.5) *
0.08)`. -/
noncomputable def vertexDisplaced (uTime : ℝ) (position normal aRandom : Vec3) : Vec3 :=
  let time := uTime * 0.3
  let px := position.x + Real.sin (time + position.y * 1.5 + aRandom.x) * 0.05
  let py := position.y + Real.cos (time + px * 1.5 + aRandom.y) * 0.05
  let pz := position.z + Real.sin (time + position.z * 1.5 + aRandom.z) * 0.05
  let breath := Real.sin (time * 0.5) * 0.08
  ⟨px + normal.x * breath, py + normal.y * breath, pz + normal.z * breath⟩

/-- The fragment shader's atlas-UV computation, over `ℚ`: flip `v`
(`uv.y = 1.0 - uv.y`), round the interpolated word index
(`floor(vWordIndex + 0.5)`), compute `colIndex = mod(index, cols)` and
`rowIndex = floor(index / cols)` (GLSL `mod(x, y) = x - y * floor(x / y)`),
and map the point-local UV into the cell. -/
def fragAtlasUV (cols rows : ℕ) (wordIndex u v : ℚ) : ℚ × ℚ :=
  let uvy : ℚ := 1 - v
  let index : ℚ := ((⌊wordIndex + 0.5⌋ : ℤ) : ℚ)
  let rowFloor : ℚ := ((⌊index / (cols : ℚ)⌋ : ℤ) : ℚ)
  let colIndex : ℚ := index - (cols : ℚ) * rowFloor
  let rowIndex : ℚ := rowFloor
  ((colIndex + u) / (cols : ℚ), 1 - (rowIndex + 1 - uvy) / (rows : ℚ))

/-- Membership of an atlas-UV point in the closed cell rectangle assigned
to glyph ordinal `idx` (row 0 at the top of the image, i.e. at the top of
the `[0, 1]` V range). -/
def inCellClosed (cols rows idx : ℕ) (p : ℚ × ℚ) : Prop :=
  ((idx % cols : ℕ) : ℚ) / (cols : ℚ) ≤ p.1 ∧
  p.1 ≤ (((idx % cols : ℕ) : ℚ) + 1) / (cols : ℚ) ∧
  1 - (((idx / cols : ℕ) : ℚ) + 1) / (rows : ℚ) ≤ p.2 ∧
  p.2 ≤ 1 - ((idx / cols : ℕ) : ℚ) / (rows : ℚ)

/-- Membership of an atlas-UV point in the open interior of the cell
rectangle assigned to glyph ordinal `idx`. -/
def inCellOpen (cols rows idx : ℕ) (p : ℚ × ℚ) : Prop :=
  ((idx % cols : ℕ) : ℚ) / (cols : ℚ) < p.1 ∧
  p.1 < (((idx % cols : ℕ) : ℚ) + 1) / (cols : ℚ) ∧
  1 - (((idx / cols : ℕ) : ℚ) + 1) / (rows : ℚ) < p.2 ∧
  p.2 < 1 - ((idx / cols : ℕ) : ℚ) / (rows : ℚ)

/-! ## Particle-field generation (source lines 200–265) -/

/-- An RGB color with real channels (a `THREE.Color`). -/
structure Color where
  r : ℝ
  g : ℝ
  b : ℝ

/-- `THREE.Color.prototype.lerp`: `this.r += (color.r - this.r) * alpha`
per channel, with no clamping. -/
def Color.lerp (self target : Color) (alpha : ℝ) : Color :=
  ⟨self.r + (target.r - self.r) * alpha,
   self.g + (target.g - self.g) * alpha,
   self.b + (target.b - self.b) * alpha⟩

/-- `theta = 2 * Math.PI * u` where `u` is the draw at stream index `i`. -/
noncomputable def sampleTheta (S : ℕ → ℝ) (i : ℕ) : ℝ := 2 * Real.pi * S i

/-- `phi = Math.acos(2 * v - 1)` where `v` is the draw at index `i+1`. -/
noncomputable def samplePhi (S : ℕ → ℝ) (i : ℕ) : ℝ := Real.arccos (2 * S (i + 1) - 1)

/-- `r = radius * (0.95 + Math.random() * 0.1)`, the radial jitter drawn
at index `i+2`. -/
noncomputable def sampleR (S : ℕ → ℝ) (radius : ℝ) (i : ℕ) : ℝ :=
  radius * (0.95 + S (i + 2) * 0.1)

/-- `x = r * Math.sin(phi) * Math.cos(theta)`. -/
noncomputable def sampleX (S : ℕ → ℝ) (radius : ℝ) (i : ℕ) : ℝ :=
  sampleR S radius i * Real.sin (samplePhi S i) * Real.cos (sampleTheta S i)

/-- `y = r * Math.cos(phi)`. -/
noncomputable def sampleY (S : ℕ → ℝ) (radius : ℝ) (i : ℕ) : ℝ :=
  sampleR S radius i * Real.cos (samplePhi S i)

/-- `z = r * Math.sin(phi) * Math.sin(theta)`. -/
noncomputable def sampleZ (S : ℕ → ℝ) (radius : ℝ) (i : ℕ) : ℝ :=
  sampleR S radius i * Real.sin (samplePhi S i) * Real.sin (sampleTheta S i)

/-- `normalizedY = y / radius`. -/
noncomputable def sampleNormalizedY (S : ℕ → ℝ) (radius : ℝ) (i : ℕ) : ℝ :=
  sampleY S radius i / radius

/-- `densityVal = Math.abs(normalizedY)`. -/
noncomputable def sampleDensityVal (S : ℕ → ℝ) (radius : ℝ) (i : ℕ) : ℝ :=
  |sampleNormalizedY S radius i|

/-- `densityProbability = 0.25 + 0.75 * Math.pow(densityVal, 2.5)`. -/
noncomputable def sampleDensityProbability (S : ℕ → ℝ) (radius : ℝ) (i : ℕ) : ℝ :=
  0.25 + 0.75 * sampleDensityVal S radius i ^ (2.5 : ℝ)

/-- `t = (normalizedY + 1) / 2`, the color-interpolation parameter. -/
noncomputable def sampleT (S : ℕ → ℝ) (radius : ℝ) (i : ℕ) : ℝ :=
  (sampleNormalizedY S radius i + 1) / 2

/-- The mutable state of the generation `while` loop: the five attribute
arrays under construction plus the index of the next random draw. -/
structure GenState where
  idx : ℕ
  positions : List ℝ
  colors : List ℝ
  randoms : List ℝ
  scales : List ℝ
  wordIndexes : List ℝ

/-- The loop state before the first iteration. -/
def initState : GenState := ⟨0, [], [], [], [], []⟩

open Classical in
/-- One candidate iteration of the generation loop (source lines
213–255).  Draws `u, v`, the radial jitter and the acceptance draw in
source order; a rejected candidate (`Math.random() > densityProbability`)
consumes 4 draws and changes nothing else, an accepted one consumes 9 and
appends one particle to every array: position, lerped color, 3 animation
seeds, scale `(2.5 - densityVal * 1.5) * (0.8 + rand * 0.5)` and word
index `Math.floor(Math.random() * G)`. -/
noncomputable def genStep (S : ℕ → ℝ) (radius : ℝ) (cTop cBottom : Color) (G : ℕ)
    (st : GenState) : GenState :=
  if S (st.idx + 3) > sampleDensityProbability S radius st.idx then
    { st with idx := st.idx + 4 }
  else
    let c := Color.lerp cBottom cTop (sampleT S radius st.idx)
    { idx := st.idx + 9
      positions := st.positions ++
        [sampleX S radius st.idx, sampleY S radius st.idx, sampleZ S radius st.idx]
      colors := st.colors ++ [c.r, c.g, c.b]
      randoms := st.randoms ++ [S (st.idx + 4), S (st.idx + 5), S (st.idx + 6)]
      scales := st.scales ++
        [(2.5 - sampleDensityVal S radius st.idx * 1.5) * (0.8 + S (st.idx + 7) * 0.5)]
      wordIndexes := st.wordIndexes ++ [((⌊S (st.idx + 8) * (G : ℝ)⌋ : ℤ) : ℝ)] }

/-- The `while (positions.length < count * 3)` loop with explicit fuel
bounding the number of candidate draws.  The source loop has no iteration
cap and no error path: its only exit is the guard becoming false. -/
noncomputable def genLoop (S : ℕ → ℝ) (radius : ℝ) (cTop cBottom : Color) (G count : ℕ) :
    ℕ → GenState → GenState
  | 0, st => st
  | fuel + 1, st =>
    if st.positions.length < count * 3 then
      genLoop S radius cTop cBottom G count fuel (genStep S radius cTop cBottom G st)
    else st

/-- Run the generator for at most `fuel` candidate draws; `some` exactly
when the loop guard became false, i.e. the buffers are complete. -/
noncomputable def generate (S : ℕ → ℝ) (radius : ℝ) (cTop cBottom : Color)
    (G count fuel : ℕ) : Option GenState :=
  let st := genLoop S radius cTop cBottom G count fuel initState
  if st.positions.length = count * 3 then some st else none

/-- The color assigned to an accepted sample at height `y` (source lines
226, 237–238): `t = (y / radius + 1) / 2`, then lerp from the bottom
color towards the top color. -/
noncomputable def particleColor (cBottom cTop : Color) (radius y : ℝ) : Color :=
  Color.lerp cBottom cTop ((y / radius + 1) / 2)

/-- Length/shape invariant of the five attribute arrays. -/
def ArraysWF (st : GenState) : Prop :=
  st.colors.length = st.positions.length ∧
  st.randoms.length = st.positions.length ∧
  st.positions.length = 3 * st.scales.length ∧
  st.wordIndexes.length = st.scales.length

/-- Every stored position triple has Euclidean norm in
`[0.95 * radius, 1.05 * radius]`. -/
def PosOK (radius : ℝ) (l : List ℝ) : Prop :=
  ∀ i : ℕ, 3 * i + 2 < l.length →
    0.95 * radius ≤
      Real.sqrt ((l.getD (3 * i) 0) ^ 2 + (l.getD (3 * i + 1) 0) ^ 2 +
        (l.getD (3 * i + 2) 0) ^ 2) ∧
    Real.sqrt ((l.getD (3 * i) 0) ^ 2 + (l.getD (3 * i + 1) 0) ^ 2 +
        (l.getD (3 * i + 2) 0) ^ 2) ≤ 1.05 * radius

/-- Every stored color channel lies in `[-0.025, 1.025]`. -/
def ColorsOK (l : List ℝ) : Prop := ∀ c ∈ l, -0.025 ≤ c ∧ c ≤ 1.025

/-- The all-zeroes random stream: every candidate is accepted. -/
def zeroStream : ℕ → ℝ := fun _ => 0

/-- The constant-`1/2` random stream: every candidate lands on the
equator (`y = 0`, acceptance probability `0.25`) and is rejected by the
acceptance draw `1/2`. -/
noncomputable def constHalfStream : ℕ → ℝ := fun _ => 1 / 2

/-- A stream whose radial-jitter draw is `0.9` and whose polar draw is
`0` (so `y = -1.04 * radius`), all other draws `0`: the accepted sample
overshoots the unit-normalized band. -/
noncomputable def overshootStream : ℕ → ℝ := fun n => if n = 2 then 0.9 else 0

/-! ## Lemmas: first-seen deduplication -/

lemma dedupFirstSeen_nil : dedupFirstSeen [] = [] := by
  simp [dedupFirstSeen]

lemma dedupFirstSeen_cons (c : Char) (rest : List Char) :
    dedupFirstSeen (c :: rest) = c :: dedupFirstSeen (rest.filter (fun d => d != c)) := by
  simp [dedupFirstSeen]

lemma mem_dedupFirstSeen (a : Char) (l : List Char) : a ∈ dedupFirstSeen l ↔ a ∈ l := by
  induction l using dedupFirstSeen.induct with
  | case1 => simp [dedupFirstSeen_nil]
  | case2 c rest ih =>
    rw [dedupFirstSeen_cons]
    by_cases hac : a = c
    · subst hac; simp
    · simp [List.mem_cons, ih, List.mem_filter, hac, bne_iff_ne]

lemma filter_indexOf_lt (p : Char → Bool) (l : List Char) (a b : Char)
    (ha : a ∈ l.filter p) (hb : b ∈ l.filter p)
    (h : (l.filter p).indexOf a < (l.filter p).indexOf b) :
    l.indexOf a < l.indexOf b := by
  induction l with
  | nil => simp at ha
  | cons x t ih =>
    by_cases hpx : p x
    · rw [List.filter_cons_of_pos hpx] at ha hb h
      by_cases hax : a = x
      · subst hax
        have hba : b ≠ a := by
          rintro rfl
          simp [List.indexOf_cons_self] at h
        rw [List.indexOf_cons_self, List.indexOf_cons_ne _ (Ne.symm hba)]
        exact Nat.succ_pos _
      · have hbx : b ≠ x := by
          rintro rfl
          simp [List.indexOf_cons_self] at h
        rw [List.indexOf_cons_ne _ (Ne.symm hax), List.indexOf_cons_ne _ (Ne.symm hbx)] at h
        rw [List.indexOf_cons_ne _ (Ne.symm hax), List.indexOf_cons_ne _ (Ne.symm hbx)]
        have ha' : a ∈ t.filter p := by
          rcases List.mem_cons.1 ha with h' | h'
          · exact absurd h' hax
          · exact h'
        have hb' : b ∈ t.filter p := by
          rcases List.mem_cons.1 hb with h' | h'
          · exact absurd h' hbx
          · exact h'
        exact Nat.succ_lt_succ (ih ha' hb' (Nat.lt_of_succ_lt_succ h))
    · rw [List.filter_cons_of_neg hpx] at ha hb h
      have hax : a ≠ x := by
        rintro rfl
        exact hpx (List.mem_filter.1 ha).2
      have hbx : b ≠ x := by
        rintro rfl
        exact hpx (List.mem_filter.1 hb).2
      rw [List.indexOf_cons_ne _ (Ne.symm hax), List.indexOf_cons_ne _ (Ne.symm hbx)]
      exact Nat.succ_lt_succ (ih ha hb h)

lemma dedupFirstSeen_pairwise (l : List Char) :
    (dedupFirstSeen l).Pairwise (fun a b => l.indexOf a < l.indexOf b) := by
  induction l using dedupFirstSeen.induct with
  | case1 => simp [dedupFirstSeen_nil]
  | case2 c rest ih =>
    rw [dedupFirstSeen_cons]
    refine List.Pairwise.cons ?_ ?_
    · intro b hb
      have hbmem : b ∈ rest.filter (fun d => d != c) := (mem_dedupFirstSeen b _).1 hb
      have hbc : b ≠ c := by
        have := (List.mem_filter.1 hbmem).2
        simpa [bne_iff_ne] using this
      rw [List.indexOf_cons_self, List.indexOf_cons_ne _ (Ne.symm hbc)]
      exact Nat.succ_pos _
    · refine ih.imp_of_mem ?_
      intro a b ha hb hab
      have hamem : a ∈ rest.filter (fun d => d != c) := (mem_dedupFirstSeen a _).1 ha
      have hbmem : b ∈ rest.filter (fun d => d != c) := (mem_dedupFirstSeen b _).1 hb
      have hac : a ≠ c := by
        have := (List.mem_filter.1 hamem).2
        simpa [bne_iff_ne] using this
      have hbc : b ≠ c := by
        have := (List.mem_filter.1 hbmem).2
        simpa [bne_iff_ne] using this
      have hrest : rest.indexOf a < rest.indexOf b :=
        filter_indexOf_lt _ rest a b hamem hbmem hab
      rw [List.indexOf_cons_ne _ (Ne.symm hac), List.indexOf_cons_ne _ (Ne.symm hbc)]
      exact Nat.succ_lt_succ hrest

lemma dedupFirstSeen_nodup (l : List Char) : (dedupFirstSeen l).Nodup := by
  refine (dedupFirstSeen_pairwise l).imp ?_
  intro a b hab
  rintro rfl
  exact lt_irrefl _ hab

lemma dedupFirstSeen_eq_self : ∀ {l : List Char}, l.Nodup → dedupFirstSeen l = l := by
  intro l
  induction l using dedupFirstSeen.induct with
  | case1 => intro _; exact dedupFirstSeen_nil
  | case2 c rest ih =>
    intro h
    have hc : c ∉ rest := (List.nodup_cons.1 h).1
    have hrest : rest.Nodup := (List.nodup_cons.1 h).2
    have hfilter : rest.filter (fun d => d != c) = rest := by
      apply List.filter_eq_self.2
      intro a ha
      simp only [bne_iff_ne, ne_eq, decide_eq_true_eq]
      rintro rfl
      exact hc ha
    rw [dedupFirstSeen_cons, hfilter]
    rw [hfilter] at ih
    rw [ih hrest]

/-! ## C5 and C10: glyph extraction -/

/-- **C5 counterexample.** The source's stripping class also contains the
ASCII semicolon, which the claim's class ("commas, periods, their
full-width forms, spaces, tabs, or newlines") does not: on the input
`";"` the character `';'` is outside the claimed class yet is not
retained in the output. -/
theorem getUniqueWords_strips_semicolon :
    specStripChar ';' = false ∧ getUniqueWords [';'] = [] := by
  constructor
  · decide
  · show dedupFirstSeen ([';'].filter (fun c => !stripChar c)) = []
    have h : [';'].filter (fun c => !stripChar c) = [] := by decide
    rw [h, dedupFirstSeen_nil]

/-- **C5 (amended).** For every input text, `getUniqueWords` returns the
first-seen-ordered deduplication of the text with the source's fixed
stripping class (commas, periods, their full-width forms, the ASCII
semicolon, spaces, tabs, newlines) removed: no duplicates, no stripped
character occurs in it, every non-stripped input character occurs in it,
and elements are ordered by first occurrence in the stripped text. -/
theorem getUniqueWords_spec (s : List Char) :
    (getUniqueWords s).Nodup ∧
    (∀ c ∈ getUniqueWords s, stripChar c = false) ∧
    (∀ c ∈ s, stripChar c = false → c ∈ getUniqueWords s) ∧
    (getUniqueWords s).Pairwise
      (fun a b => (s.filter (fun c => !stripChar c)).indexOf a <
        (s.filter (fun c => !stripChar c)).indexOf b) := by
  refine ⟨dedupFirstSeen_nodup _, ?_, ?_, dedupFirstSeen_pairwise _⟩
  · intro c hc
    have hmem := (mem_dedupFirstSeen c _).1 hc
    have := (List.mem_filter.1 hmem).2
    simpa using this
  · intro c hcs hstrip
    exact (mem_dedupFirstSeen c _).2 (List.mem_filter.2 ⟨hcs, by simp [hstrip]⟩)

/-- Witness for C5: on the text `"aab"`, `'b'` is not stripped and is
retained in the glyph set. -/
theorem getUniqueWords_spec_witness :
    stripChar 'b' = false ∧ 'b' ∈ getUniqueWords ['a', 'a', 'b'] :=
  ⟨by decide, (getUniqueWords_spec ['a', 'a', 'b']).2.2.1 'b' (by decide) (by decide)⟩

/-- **C10.** The glyph extractor is idempotent: re-extracting from the
concatenation of its own output yields the same ordered list (a
`List Char` is its own concatenation of single-character glyphs). -/
theorem getUniqueWords_idempotent (s : List Char) :
    getUniqueWords (getUniqueWords s) = getUniqueWords s := by
  show dedupFirstSeen ((getUniqueWords s).filter (fun c => !stripChar c)) = getUniqueWords s
  have hstrip : ∀ c ∈ getUniqueWords s, (!stripChar c) = true := by
    intro c hc
    have hmem := (mem_dedupFirstSeen c _).1 hc
    exact (List.mem_filter.1 hmem).2
  rw [List.filter_eq_self.2 hstrip]
  exact dedupFirstSeen_eq_self (dedupFirstSeen_nodup _)

/-! ## Lemmas: atlas layout -/

lemma atlasCols_pos (N : ℕ) (hN : 1 ≤ N) : 0 < atlasCols N := by
  unfold atlasCols
  by_cases h : Nat.sqrt N * Nat.sqrt N = N
  · rw [if_pos h]; exact Nat.sqrt_pos.2 hN
  · rw [if_neg h]; omega

lemma atlasCols_eq_ceil_sqrt (N : ℕ) : atlasCols N = ⌈Real.sqrt N⌉₊ := by
  unfold atlasCols
  by_cases h : Nat.sqrt N * Nat.sqrt N = N
  · rw [if_pos h]
    have hs : Real.sqrt (N : ℝ) = (Nat.sqrt N : ℝ) := by
      conv_lhs => rw [← h]
      push_cast
      exact Real.sqrt_mul_self (Nat.cast_nonneg _)
    rw [hs, Nat.ceil_natCast]
  · rw [if_neg h]
    have h1 : Nat.sqrt N * Nat.sqrt N < N := lt_of_le_of_ne (Nat.sqrt_le N) h
    have h2 : N < (Nat.sqrt N + 1) * (Nat.sqrt N + 1) := Nat.lt_succ_sqrt N
    symm
    rw [Nat.ceil_eq_iff (Nat.succ_ne_zero _)]
    constructor
    · have hsq : ((Nat.sqrt N : ℝ)) ^ 2 < (N : ℝ) := by
        have := (Nat.cast_lt (α := ℝ)).2 h1
        push_cast at this
        nlinarith [this]
      have hlt := (Real.lt_sqrt (Nat.cast_nonneg _)).2 hsq
      simpa using hlt
    · have hle : (N : ℝ) ≤ ((Nat.sqrt N : ℝ) + 1) ^ 2 := by
        have := (Nat.cast_le (α := ℝ)).2 (Nat.le_of_lt h2)
        push_cast at this
        nlinarith [this]
      have := le_trans (Real.sqrt_le_sqrt hle) (le_of_eq (Real.sqrt_sq (by positivity)))
      push_cast
      exact this

lemma le_atlasCols_mul_atlasRows (N : ℕ) (hN : 1 ≤ N) : N ≤ atlasCols N * atlasRows N := by
  have hc : 0 < atlasCols N := atlasCols_pos N hN
  have hcq : (0 : ℚ) < (atlasCols N : ℚ) := by exact_mod_cast hc
  have hle : (N : ℚ) / (atlasCols N : ℚ) ≤ (atlasRows N : ℚ) := Nat.le_ceil _
  have hmul : (N : ℚ) ≤ (atlasRows N : ℚ) * (atlasCols N : ℚ) := by
    rwa [div_le_iff₀ hcq] at hle
  have hcast : (N : ℚ) ≤ ((atlasCols N * atlasRows N : ℕ) : ℚ) := by
    push_cast
    linarith [hmul]
  exact_mod_cast hcast

/-! ## C6 and C3: atlas layout and degenerate glyph count -/

/-- **C6.** For `N ≥ 1` glyphs: `cols = ceil(sqrt N)`,
`rows = ceil(N / cols)`, `cols * rows ≥ N`, the glyph at ordinal `i` is
drawn in cell `(i % cols, ⌊i / cols⌋)` (row 0 on top), and these cells
are in bounds and pairwise distinct. -/
theorem atlasLayout_spec (N : ℕ) (hN : 1 ≤ N) :
    atlasCols N = ⌈Real.sqrt N⌉₊ ∧
    atlasRows N = ⌈(N : ℚ) / (atlasCols N : ℚ)⌉₊ ∧
    N ≤ atlasCols N * atlasRows N ∧
    (∀ i < N, (atlasCell (atlasCols N) i).1 < atlasCols N ∧
      (atlasCell (atlasCols N) i).2 < atlasRows N) ∧
    (∀ i < N, ∀ j < N, atlasCell (atlasCols N) i = atlasCell (atlasCols N) j → i = j) ∧
    (∀ words : List Char, words.length = N → ∀ i, i < N →
      (createWordTextureAtlas true true words).drawCalls.getD i (' ', 0, 0) =
        (words.getD i ' ', atlasCell (atlasCols N) i)) := by
  have hc : 0 < atlasCols N := atlasCols_pos N hN
  have hcr : N ≤ atlasCols N * atlasRows N := le_atlasCols_mul_atlasRows N hN
  refine ⟨atlasCols_eq_ceil_sqrt N, rfl, hcr, ?_, ?_, ?_⟩
  · intro i hi
    refine ⟨Nat.mod_lt _ hc, ?_⟩
    show i / atlasCols N < atlasRows N
    rw [Nat.div_lt_iff_lt_mul hc]
    calc i < N := hi
      _ ≤ atlasCols N * atlasRows N := hcr
      _ = atlasRows N * atlasCols N := Nat.mul_comm _ _
  · intro i _ j _ hij
    have h1 : i % atlasCols N = j % atlasCols N := congrArg Prod.fst hij
    have h2 : i / atlasCols N = j / atlasCols N := congrArg Prod.snd hij
    have hd1 := Nat.div_add_mod i (atlasCols N)
    have hd2 := Nat.div_add_mod j (atlasCols N)
    rw [h1, h2] at hd1
    omega
  · intro words hlen i hi
    have hi' : i < words.length := by omega
    have hred : (createWordTextureAtlas true true words).drawCalls =
        words.enum.map (fun p => (p.2, atlasCell (atlasCols words.length) p.1)) := rfl
    rw [hred, List.getD_eq_getElem?_getD, List.getElem?_map]
    rw [show words.enum = words.enumFrom 0 from rfl, List.getElem?_enumFrom]
    rw [List.getElem?_eq_getElem hi']
    simp only [Option.map_some', Option.getD_some, Nat.zero_add]
    rw [List.getD_eq_getElem?_getD, List.getElem?_eq_getElem hi', hlen]
    rfl

/-- Witness for C6 at `N = 5`: the layout covers all five glyphs. -/
theorem atlasLayout_spec_witness : 1 ≤ 5 ∧ 5 ≤ atlasCols 5 * atlasRows 5 :=
  ⟨by norm_num, (atlasLayout_spec 5 (by norm_num)).2.2.1⟩

/-- **C3 counterexample.** With a drawing surface available and zero
glyphs, the builder computes `cols = Math.ceil(Math.sqrt 0) = 0`, not the
`cols = 1` the claim states (the `1 × 1` default exists only on the
no-document / no-context paths). -/
theorem atlas_empty_grid_not_one :
    (createWordTextureAtlas true true []).cols = 0 ∧
    (createWordTextureAtlas true true []).cols ≠ 1 := by
  exact ⟨rfl, by decide⟩

/-- **C3 (amended).** With zero glyphs and a surface available the
builder performs no draw calls and does not crash, but returns `cols = 0`
(and `rows = ceil(0 / 0)`, `NaN` in the source); the `cols = rows = 1`
empty-texture default is returned exactly when the document or the 2D
context is unavailable. -/
theorem atlas_empty_glyphs_behavior :
    (createWordTextureAtlas true true []).drawCalls = [] ∧
    (createWordTextureAtlas true true []).cols = 0 ∧
    (createWordTextureAtlas false true []).cols = 1 ∧
    (createWordTextureAtlas false true []).rows = 1 ∧
    (createWordTextureAtlas false true []).drawCalls = [] ∧
    (createWordTextureAtlas true false []).cols = 1 ∧
    (createWordTextureAtlas true false []).rows = 1 ∧
    (createWordTextureAtlas true false []).drawCalls = [] :=
  ⟨rfl, rfl, rfl, rfl, rfl, rfl, rfl, rfl⟩

/-! ## Lemmas: fragment-stage atlas UV -/

lemma fragAtlasUV_natIndex (cols rows idx : ℕ) (u v : ℚ) :
    fragAtlasUV cols rows (idx : ℚ) u v =
      ((((idx % cols : ℕ) : ℚ) + u) / (cols : ℚ),
       1 - (((idx / cols : ℕ) : ℚ) + v) / (rows : ℚ)) := by
  have h05 : ⌊(0.5 : ℚ)⌋ = 0 := by
    rw [Int.floor_eq_zero_iff]
    constructor <;> norm_num
  have hfl : ⌊(idx : ℚ) + 0.5⌋ = (idx : ℤ) := by
    rw [show ((idx : ℚ) + 0.5) = 0.5 + ((idx : ℤ) : ℚ) by push_cast; ring,
      Int.floor_add_int, h05, zero_add]
  have hdiv : ⌊(((idx : ℤ) : ℚ)) / ((cols : ℚ))⌋ = ((idx / cols : ℕ) : ℤ) := by
    rw [Rat.floor_intCast_div_natCast]
    exact_mod_cast rfl
  simp only [fragAtlasUV]
  rw [hfl, hdiv]
  have hdm : ((cols : ℚ)) * ((idx / cols : ℕ) : ℚ) + ((idx % cols : ℕ) : ℚ) = (idx : ℚ) := by
    exact_mod_cast Nat.div_add_mod idx cols
  simp only [Prod.mk.injEq, Int.cast_natCast]
  constructor
  · linear_combination (-(1 / (cols : ℚ))) * hdm
  · ring

/-! ## C7: atlas-UV cell membership -/

/-- **C7 (amended).** For any point-local UV in `[0,1]²` and glyph index
`idx < cols * rows`, the derived atlas UV lies in the closed cell
rectangle assigned to `idx`, and strictly inside it whenever the UV lies
in the open square `(0,1)²`; the open interiors of distinct glyphs'
cells are disjoint (closed cells of adjacent glyphs share their edges,
so the claim's strictness fails on the boundary of the UV square). -/
theorem fragAtlasUV_cell_membership (cols rows : ℕ) (hc : 1 ≤ cols) (hr : 1 ≤ rows) :
    (∀ idx, idx < cols * rows → ∀ u v : ℚ, 0 ≤ u → u ≤ 1 → 0 ≤ v → v ≤ 1 →
      inCellClosed cols rows idx (fragAtlasUV cols rows (idx : ℚ) u v)) ∧
    (∀ idx, idx < cols * rows → ∀ u v : ℚ, 0 < u → u < 1 → 0 < v → v < 1 →
      inCellOpen cols rows idx (fragAtlasUV cols rows (idx : ℚ) u v)) ∧
    (∀ j, j < cols * rows → ∀ k, k < cols * rows → j ≠ k → ∀ p : ℚ × ℚ,
      ¬(inCellOpen cols rows j p ∧ inCellOpen cols rows k p)) := by
  have hcq : (0 : ℚ) < (cols : ℚ) := by exact_mod_cast hc
  have hrq : (0 : ℚ) < (rows : ℚ) := by exact_mod_cast hr
  refine ⟨?_, ?_, ?_⟩
  · intro idx _ u v hu0 hu1 hv0 hv1
    rw [fragAtlasUV_natIndex]
    unfold inCellClosed
    dsimp only
    refine ⟨?_, ?_, ?_, ?_⟩
    · exact (div_le_div_iff_of_pos_right hcq).2 (by linarith)
    · exact (div_le_div_iff_of_pos_right hcq).2 (by linarith)
    · have := (div_le_div_iff_of_pos_right hrq).2
        (show ((idx / cols : ℕ) : ℚ) + v ≤ ((idx / cols : ℕ) : ℚ) + 1 by linarith)
      linarith
    · have := (div_le_div_iff_of_pos_right hrq).2
        (show ((idx / cols : ℕ) : ℚ) ≤ ((idx / cols : ℕ) : ℚ) + v by linarith)
      linarith
  · intro idx _ u v hu0 hu1 hv0 hv1
    rw [fragAtlasUV_natIndex]
    unfold inCellOpen
    dsimp only
    refine ⟨?_, ?_, ?_, ?_⟩
    · exact (div_lt_div_iff_of_pos_right hcq).2 (by linarith)
    · exact (div_lt_div_iff_of_pos_right hcq).2 (by linarith)
    · have := (div_lt_div_iff_of_pos_right hrq).2
        (show ((idx / cols : ℕ) : ℚ) + v < ((idx / cols : ℕ) : ℚ) + 1 by linarith)
      linarith
    · have := (div_lt_div_iff_of_pos_right hrq).2
        (show ((idx / cols : ℕ) : ℚ) < ((idx / cols : ℕ) : ℚ) + v by linarith)
      linarith
  · intro j _ k _ hjk p hp
    obtain ⟨hpj, hpk⟩ := hp
    unfold inCellOpen at hpj hpk
    by_cases hcol : j % cols = k % cols
    · have hrow : j / cols ≠ k / cols := by
        intro hdiv
        apply hjk
        have h1 := Nat.div_add_mod j cols
        have h2 := Nat.div_add_mod k cols
        rw [hcol, hdiv] at h1
        omega
      rcases Nat.lt_or_ge (j / cols) (k / cols) with h | h
      · have hle : ((j / cols : ℕ) : ℚ) + 1 ≤ ((k / cols : ℕ) : ℚ) := by exact_mod_cast h
        have hd : (((j / cols : ℕ) : ℚ) + 1) / (rows : ℚ) ≤ ((k / cols : ℕ) : ℚ) / (rows : ℚ) := by
          gcongr
        linarith [hpj.2.2.1, hpk.2.2.2]
      · have h' : k / cols < j / cols := lt_of_le_of_ne h (Ne.symm hrow)
        have hle : ((k / cols : ℕ) : ℚ) + 1 ≤ ((j / cols : ℕ) : ℚ) := by exact_mod_cast h'
        have hd : (((k / cols : ℕ) : ℚ) + 1) / (rows : ℚ) ≤ ((j / cols : ℕ) : ℚ) / (rows : ℚ) := by
          gcongr
        linarith [hpk.2.2.1, hpj.2.2.2]
    · rcases Nat.lt_or_ge (j % cols) (k % cols) with h | h
      · have hle : ((j % cols : ℕ) : ℚ) + 1 ≤ ((k % cols : ℕ) : ℚ) := by exact_mod_cast h
        have hd : (((j % cols : ℕ) : ℚ) + 1) / (cols : ℚ) ≤ ((k % cols : ℕ) : ℚ) / (cols : ℚ) := by
          gcongr
        linarith [hpj.2.1, hpk.1]
      · have h' : k % cols < j % cols := lt_of_le_of_ne h (Ne.symm hcol)
        have hle : ((k % cols : ℕ) : ℚ) + 1 ≤ ((j % cols : ℕ) : ℚ) := by exact_mod_cast h'
        have hd : (((k % cols : ℕ) : ℚ) + 1) / (cols : ℚ) ≤ ((j % cols : ℕ) : ℚ) / (cols : ℚ) := by
          gcongr
        linarith [hpk.2.1, hpj.1]

/-- Witness for C7 at `cols = rows = 2`, glyph 3, point-local UV
`(1/2, 1/2)`. -/
theorem fragAtlasUV_cell_membership_witness :
    1 ≤ 2 ∧ (3 : ℕ) < 2 * 2 ∧
    inCellClosed 2 2 3 (fragAtlasUV 2 2 ((3 : ℕ) : ℚ) (1/2) (1/2)) :=
  ⟨by norm_num, by norm_num,
    (fragAtlasUV_cell_membership 2 2 (by norm_num) (by norm_num)).1 3 (by norm_num)
      (1/2) (1/2) (by norm_num) (by norm_num) (by norm_num) (by norm_num)⟩

/-- **C7 counterexample.** At `cols = 2, rows = 1`, glyph index 1 and
point-local UV `(0, 1/2)` — a UV in `[0,1]²` — the derived atlas U
equals the cell's left edge `1/2`: the atlas UV is on the cell boundary,
not strictly inside it. -/
theorem fragAtlasUV_boundary_not_strict :
    (fragAtlasUV 2 1 ((1 : ℕ) : ℚ) 0 (1/2)).1 = ((1 % 2 : ℕ) : ℚ) / 2 ∧
    ¬ inCellOpen 2 1 1 (fragAtlasUV 2 1 ((1 : ℕ) : ℚ) 0 (1/2)) := by
  have h := fragAtlasUV_natIndex 2 1 1 0 (1/2)
  constructor
  · rw [h]
    norm_num
  · rw [h]
    intro hopen
    have h1 := hopen.1
    norm_num at h1

/-! ## C4: color interpolation -/

/-- **C4 counterexample.** At the equator `y = 0` the interpolation
parameter is `t = 1/2`, so the assigned color is the per-channel midpoint
of the two colors, not the bottom color: with bottom `(0,0,1)` and top
`(1,0,0)` at `radius = 1` the result is `(1/2, 0, 1/2) ≠ (0,0,1)`. -/
theorem particleColor_at_equator_ne_bottom :
    particleColor ⟨0, 0, 1⟩ ⟨1, 0, 0⟩ 1 0 ≠ ⟨0, 0, 1⟩ := by
  simp only [particleColor, Color.lerp, ne_eq, Color.mk.injEq]
  intro h
  have hr := h.1
  norm_num at hr

/-- **C4 (amended).** The assigned color is monotonic in
`normalizedY = y / R` (not in `|y| / R`) and bounded: at `y = -R` the
output equals the bottom color, at `y = +R` it equals the top color;
each channel is monotone non-decreasing in `y` whenever the bottom
channel is at most the top channel, and for `-R ≤ y ≤ R` each output
channel lies between the two corresponding input channels. -/
theorem particleColor_endpoints_and_monotone (cBottom cTop : Color) (radius : ℝ)
    (hR : 0 < radius) :
    particleColor cBottom cTop radius (-radius) = cBottom ∧
    particleColor cBottom cTop radius radius = cTop ∧
    (∀ y1 y2 : ℝ, y1 ≤ y2 →
      (cBottom.r ≤ cTop.r →
        (particleColor cBottom cTop radius y1).r ≤ (particleColor cBottom cTop radius y2).r) ∧
      (cBottom.g ≤ cTop.g →
        (particleColor cBottom cTop radius y1).g ≤ (particleColor cBottom cTop radius y2).g) ∧
      (cBottom.b ≤ cTop.b →
        (particleColor cBottom cTop radius y1).b ≤ (particleColor cBottom cTop radius y2).b)) ∧
    (∀ y : ℝ, -radius ≤ y → y ≤ radius →
      (min cBottom.r cTop.r ≤ (particleColor cBottom cTop radius y).r ∧
        (particleColor cBottom cTop radius y).r ≤ max cBottom.r cTop.r) ∧
      (min cBottom.g cTop.g ≤ (particleColor cBottom cTop radius y).g ∧
        (particleColor cBottom cTop radius y).g ≤ max cBottom.g cTop.g) ∧
      (min cBottom.b cTop.b ≤ (particleColor cBottom cTop radius y).b ∧
        (particleColor cBottom cTop radius y).b ≤ max cBottom.b cTop.b)) := by
  have hRne : radius ≠ 0 := ne_of_gt hR
  have ht_mono : ∀ y1 y2 : ℝ, y1 ≤ y2 →
      (y1 / radius + 1) / 2 ≤ (y2 / radius + 1) / 2 := by
    intro y1 y2 h
    gcongr
  have ht_bounds : ∀ y : ℝ, -radius ≤ y → y ≤ radius →
      0 ≤ (y / radius + 1) / 2 ∧ (y / radius + 1) / 2 ≤ 1 := by
    intro y h1 h2
    have hlo : (-1 : ℝ) ≤ y / radius := by
      rw [le_div_iff₀ hR]
      linarith
    have hhi : y / radius ≤ 1 := by
      rw [div_le_one hR]
      linarith
    constructor <;> linarith
  have hchan_mono : ∀ b a t1 t2 : ℝ, b ≤ a → t1 ≤ t2 →
      b + (a - b) * t1 ≤ b + (a - b) * t2 := by
    intro b a t1 t2 hba ht
    nlinarith
  have hchan_bounds : ∀ b a t : ℝ, 0 ≤ t → t ≤ 1 →
      min b a ≤ b + (a - b) * t ∧ b + (a - b) * t ≤ max b a := by
    intro b a t h0 h1
    rcases le_total b a with h | h
    · rw [min_eq_left h, max_eq_right h]
      constructor <;> nlinarith
    · rw [min_eq_right h, max_eq_left h]
      constructor <;> nlinarith
  refine ⟨?_, ?_, ?_, ?_⟩
  · simp only [particleColor, Color.lerp]
    have ht : (-radius / radius + 1) / 2 = 0 := by
      field_simp
    rw [ht]
    simp
  · simp only [particleColor, Color.lerp]
    have ht : (radius / radius + 1) / 2 = 1 := by
      field_simp
    rw [ht]
    simp only [mul_one]
    congr 1 <;> ring
  · intro y1 y2 h
    have ht := ht_mono y1 y2 h
    exact ⟨fun hba => hchan_mono _ _ _ _ hba ht,
      fun hba => hchan_mono _ _ _ _ hba ht,
      fun hba => hchan_mono _ _ _ _ hba ht⟩
  · intro y h1 h2
    obtain ⟨ht0, ht1⟩ := ht_bounds y h1 h2
    exact ⟨hchan_bounds _ _ _ ht0 ht1, hchan_bounds _ _ _ ht0 ht1,
      hchan_bounds _ _ _ ht0 ht1⟩

/-- Witness for C4 at bottom `(0,0,0)`, top `(1,1,1)`, `radius = 1`:
the south pole `y = -1` receives exactly the bottom color. -/
theorem particleColor_endpoints_and_monotone_witness :
    (0 : ℝ) < 1 ∧ particleColor ⟨0, 0, 0⟩ ⟨1, 1, 1⟩ 1 (-1) = ⟨0, 0, 0⟩ :=
  ⟨by norm_num, (particleColor_endpoints_and_monotone ⟨0, 0, 0⟩ ⟨1, 1, 1⟩ 1 (by norm_num)).1⟩

/-! ## C9: breathing displacement -/

/-- **C9 counterexample.** At `uTime = 2π` (with position, random seed
zero and normal `(1,0,0)`) the code's breathing displacement along the
normal is `sin(0.3π) · 0.08 > 0`, while the claimed value
`sin(uTime · 0.5) · 0.08 = sin(π) · 0.08 = 0`: the shader scales the
time uniform by `0.3` before applying the `0.5` factor. -/
theorem vertexDisplaced_breath_ne_claimed :
    (vertexDisplaced (2 * Real.pi) ⟨0, 0, 0⟩ ⟨1, 0, 0⟩ ⟨0, 0, 0⟩).x -
      (wiggleOnly (2 * Real.pi * 0.3) ⟨0, 0, 0⟩ ⟨0, 0, 0⟩).x ≠
      Real.sin (2 * Real.pi * 0.5) * 0.08 := by
  have hpi := Real.pi_pos
  have hzero : Real.sin (2 * Real.pi * 0.5) = 0 := by
    rw [show (2 : ℝ) * Real.pi * 0.5 = Real.pi by ring]
    exact Real.sin_pi
  have hpos : 0 < Real.sin (2 * Real.pi * 0.3 * 0.5) := by
    apply Real.sin_pos_of_pos_of_lt_pi
    · nlinarith
    · nlinarith
  simp only [vertexDisplaced, wiggleOnly]
  intro h
  rw [hzero] at h
  nlinarith [hpos, h]

/-- **C9 (amended).** In the vertex stage the breathing displacement
applied along the surface normal equals
`sin(uTime * 0.3 * 0.5) * 0.08 = sin(uTime * 0.15) * 0.08`, where
`uTime` is the elapsed-time uniform in seconds: the displaced position is
the wiggled position plus that multiple of the normal. -/
theorem vertexDisplaced_breath (uTime : ℝ) (position normal aRandom : Vec3) :
    vertexDisplaced uTime position normal aRandom =
      ⟨(wiggleOnly (uTime * 0.3) position aRandom).x +
          normal.x * (Real.sin (uTime * 0.15) * 0.08),
        (wiggleOnly (uTime * 0.3) position aRandom).y +
          normal.y * (Real.sin (uTime * 0.15) * 0.08),
        (wiggleOnly (uTime * 0.3) position aRandom).z +
          normal.z * (Real.sin (uTime * 0.15) * 0.08)⟩ := by
  simp only [vertexDisplaced, wiggleOnly]
  have harg : uTime * 0.3 * 0.5 = uTime * 0.15 := by ring
  rw [harg]

/-! ## Lemmas: particle generation -/

lemma getD_append_left {α : Type} (l l' : List α) (d : α) (n : ℕ) (h : n < l.length) :
    (l ++ l').getD n d = l.getD n d := by
  rw [List.getD_eq_getElem?_getD, List.getElem?_append_left h, ← List.getD_eq_getElem?_getD]

lemma getD_append_right_of_le {α : Type} (l l' : List α) (d : α) (n : ℕ) (h : l.length ≤ n) :
    (l ++ l').getD n d = l'.getD (n - l.length) d := by
  rw [List.getD_eq_getElem?_getD, List.getElem?_append_right h, ← List.getD_eq_getElem?_getD]

lemma sampleDensityProbability_nonneg (S : ℕ → ℝ) (radius : ℝ) (i : ℕ) :
    0 ≤ sampleDensityProbability S radius i := by
  unfold sampleDensityProbability sampleDensityVal
  have h := Real.rpow_nonneg (abs_nonneg (sampleNormalizedY S radius i)) (2.5 : ℝ)
  nlinarith [h]

lemma genStep_reject (S : ℕ → ℝ) (radius : ℝ) (cTop cBottom : Color) (G : ℕ) (st : GenState)
    (h : S (st.idx + 3) > sampleDensityProbability S radius st.idx) :
    genStep S radius cTop cBottom G st = { st with idx := st.idx + 4 } := by
  unfold genStep
  rw [if_pos h]

lemma genStep_accept (S : ℕ → ℝ) (radius : ℝ) (cTop cBottom : Color) (G : ℕ) (st : GenState)
    (h : ¬ S (st.idx + 3) > sampleDensityProbability S radius st.idx) :
    genStep S radius cTop cBottom G st =
      { idx := st.idx + 9
        positions := st.positions ++
          [sampleX S radius st.idx, sampleY S radius st.idx, sampleZ S radius st.idx]
        colors := st.colors ++ [(Color.lerp cBottom cTop (sampleT S radius st.idx)).r,
          (Color.lerp cBottom cTop (sampleT S radius st.idx)).g,
          (Color.lerp cBottom cTop (sampleT S radius st.idx)).b]
        randoms := st.randoms ++ [S (st.idx + 4), S (st.idx + 5), S (st.idx + 6)]
        scales := st.scales ++
          [(2.5 - sampleDensityVal S radius st.idx * 1.5) * (0.8 + S (st.idx + 7) * 0.5)]
        wordIndexes := st.wordIndexes ++ [((⌊S (st.idx + 8) * (G : ℝ)⌋ : ℤ) : ℝ)] } := by
  unfold genStep
  rw [if_neg h]

lemma genLoop_preserves (S : ℕ → ℝ) (radius : ℝ) (cTop cBottom : Color) (G count : ℕ)
    (P : GenState → Prop)
    (hstep : ∀ st, P st → P (genStep S radius cTop cBottom G st)) :
    ∀ fuel st, P st → P (genLoop S radius cTop cBottom G count fuel st) := by
  intro fuel
  induction fuel with
  | zero =>
    intro st h
    simpa [genLoop] using h
  | succ n ih =>
    intro st h
    simp only [genLoop]
    by_cases hlt : st.positions.length < count * 3
    · rw [if_pos hlt]
      exact ih _ (hstep _ h)
    · rw [if_neg hlt]
      exact h

lemma genStep_wf (S : ℕ → ℝ) (radius : ℝ) (cTop cBottom : Color) (G : ℕ) (st : GenState)
    (h : ArraysWF st) : ArraysWF (genStep S radius cTop cBottom G st) := by
  by_cases hb : S (st.idx + 3) > sampleDensityProbability S radius st.idx
  · rw [genStep_reject _ _ _ _ _ _ hb]
    exact h
  · rw [genStep_accept _ _ _ _ _ _ hb]
    unfold ArraysWF at h ⊢
    simp only [List.length_append, List.length_cons, List.length_nil]
    omega

lemma sample_norm (S : ℕ → ℝ) (radius : ℝ) (i : ℕ)
    (hS : ∀ n, 0 ≤ S n ∧ S n < 1) (hR : 0 < radius) :
    0.95 * radius ≤ Real.sqrt ((sampleX S radius i) ^ 2 + (sampleY S radius i) ^ 2 +
      (sampleZ S radius i) ^ 2) ∧
    Real.sqrt ((sampleX S radius i) ^ 2 + (sampleY S radius i) ^ 2 +
      (sampleZ S radius i) ^ 2) ≤ 1.05 * radius := by
  have hw := hS (i + 2)
  have hr0 : 0 ≤ sampleR S radius i := by
    unfold sampleR
    nlinarith [hw.1, hR.le]
  have hsq : (sampleX S radius i) ^ 2 + (sampleY S radius i) ^ 2 + (sampleZ S radius i) ^ 2
      = (sampleR S radius i) ^ 2 := by
    unfold sampleX sampleY sampleZ
    have h1 := Real.sin_sq_add_cos_sq (sampleTheta S i)
    have h2 := Real.sin_sq_add_cos_sq (samplePhi S i)
    linear_combination (sampleR S radius i) ^ 2 * (Real.sin (samplePhi S i)) ^ 2 * h1 +
      (sampleR S radius i) ^ 2 * h2
  rw [hsq, Real.sqrt_sq hr0]
  unfold sampleR
  constructor <;> nlinarith [hw.1, hw.2, hR.le]

lemma posOK_append (radius : ℝ) (l : List ℝ) (x y z : ℝ) (k : ℕ) (hk : l.length = 3 * k)
    (hl : PosOK radius l)
    (hxyz : 0.95 * radius ≤ Real.sqrt (x ^ 2 + y ^ 2 + z ^ 2) ∧
      Real.sqrt (x ^ 2 + y ^ 2 + z ^ 2) ≤ 1.05 * radius) :
    PosOK radius (l ++ [x, y, z]) := by
  intro i hi
  rw [List.length_append] at hi
  simp only [List.length_cons, List.length_nil] at hi
  rcases lt_trichotomy i k with hik | hik | hik
  · have h0 : 3 * i < l.length := by omega
    have h1 : 3 * i + 1 < l.length := by omega
    have h2 : 3 * i + 2 < l.length := by omega
    rw [getD_append_left _ _ _ _ h0, getD_append_left _ _ _ _ h1, getD_append_left _ _ _ _ h2]
    exact hl i h2
  · have hx : (l ++ [x, y, z]).getD (3 * i) 0 = x := by
      rw [getD_append_right_of_le _ _ _ _ (by omega)]
      rw [show 3 * i - l.length = 0 by omega]
      rfl
    have hy : (l ++ [x, y, z]).getD (3 * i + 1) 0 = y := by
      rw [getD_append_right_of_le _ _ _ _ (by omega)]
      rw [show 3 * i + 1 - l.length = 1 by omega]
      rfl
    have hz : (l ++ [x, y, z]).getD (3 * i + 2) 0 = z := by
      rw [getD_append_right_of_le _ _ _ _ (by omega)]
      rw [show 3 * i + 2 - l.length = 2 by omega]
      rfl
    rw [hx, hy, hz]
    exact hxyz
  · omega

lemma genStep_posOK (S : ℕ → ℝ) (radius : ℝ) (cTop cBottom : Color) (G : ℕ) (st : GenState)
    (hS : ∀ n, 0 ≤ S n ∧ S n < 1) (hR : 0 < radius)
    (hwf : ArraysWF st) (h : PosOK radius st.positions) :
    PosOK radius (genStep S radius cTop cBottom G st).positions := by
  by_cases hb : S (st.idx + 3) > sampleDensityProbability S radius st.idx
  · rw [genStep_reject _ _ _ _ _ _ hb]
    exact h
  · rw [genStep_accept _ _ _ _ _ _ hb]
    exact posOK_append radius st.positions _ _ _ st.scales.length hwf.2.2.1 h
      (sample_norm S radius st.idx hS hR)

lemma abs_sampleNormalizedY_le (S : ℕ → ℝ) (radius : ℝ) (i : ℕ)
    (hS : ∀ n, 0 ≤ S n ∧ S n < 1) (hR : 0 < radius) :
    |sampleNormalizedY S radius i| ≤ 1.05 := by
  have hw := hS (i + 2)
  have hcos : |Real.cos (samplePhi S i)| ≤ 1 := Real.abs_cos_le_one _
  have hcos0 : 0 ≤ |Real.cos (samplePhi S i)| := abs_nonneg _
  unfold sampleNormalizedY sampleY sampleR
  rw [abs_div, abs_of_pos hR, div_le_iff₀ hR, abs_mul, abs_mul, abs_of_pos hR,
    abs_of_nonneg (show (0 : ℝ) ≤ 0.95 + S (i + 2) * 0.1 by nlinarith [hw.1])]
  have h1 : 0.95 + S (i + 2) * 0.1 ≤ 1.05 := by nlinarith [hw.2]
  have h2 : (0.95 + S (i + 2) * 0.1) * |Real.cos (samplePhi S i)| ≤ 1.05 * 1 :=
    mul_le_mul h1 hcos hcos0 (by norm_num)
  have h3 := mul_le_mul_of_nonneg_left h2 hR.le
  nlinarith [h3]

lemma sampleT_bounds (S : ℕ → ℝ) (radius : ℝ) (i : ℕ)
    (hS : ∀ n, 0 ≤ S n ∧ S n < 1) (hR : 0 < radius) :
    -0.025 ≤ sampleT S radius i ∧ sampleT S radius i ≤ 1.025 := by
  have habs := abs_sampleNormalizedY_le S radius i hS hR
  have h := abs_le.1 habs
  unfold sampleT
  constructor <;> linarith [h.1, h.2]

lemma lerp_channel_bounds (b a t : ℝ) (hb0 : 0 ≤ b) (hb1 : b ≤ 1) (ha0 : 0 ≤ a) (ha1 : a ≤ 1)
    (ht0 : -0.025 ≤ t) (ht1 : t ≤ 1.025) :
    -0.025 ≤ b + (a - b) * t ∧ b + (a - b) * t ≤ 1.025 := by
  constructor
  · rcases le_or_lt 0 t with h | h
    · rcases le_or_lt t 1 with h' | h'
      · nlinarith
      · nlinarith
    · nlinarith
  · rcases le_or_lt 0 t with h | h
    · rcases le_or_lt t 1 with h' | h'
      · nlinarith
      · nlinarith
    · nlinarith

lemma genStep_colorsOK (S : ℕ → ℝ) (radius : ℝ) (cTop cBottom : Color) (G : ℕ) (st : GenState)
    (hS : ∀ n, 0 ≤ S n ∧ S n < 1) (hR : 0 < radius)
    (hTop : 0 ≤ cTop.r ∧ cTop.r ≤ 1 ∧ 0 ≤ cTop.g ∧ cTop.g ≤ 1 ∧ 0 ≤ cTop.b ∧ cTop.b ≤ 1)
    (hBot : 0 ≤ cBottom.r ∧ cBottom.r ≤ 1 ∧ 0 ≤ cBottom.g ∧ cBottom.g ≤ 1 ∧
      0 ≤ cBottom.b ∧ cBottom.b ≤ 1)
    (h : ColorsOK st.colors) : ColorsOK (genStep S radius cTop cBottom G st).colors := by
  by_cases hb : S (st.idx + 3) > sampleDensityProbability S radius st.idx
  · rw [genStep_reject _ _ _ _ _ _ hb]
    exact h
  · rw [genStep_accept _ _ _ _ _ _ hb]
    intro c hc
    obtain ⟨ht0, ht1⟩ := sampleT_bounds S radius st.idx hS hR
    rcases List.mem_append.1 hc with hold | hnew
    · exact h c hold
    · simp only [Color.lerp, List.mem_cons, List.not_mem_nil, or_false] at hnew
      rcases hnew with rfl | rfl | rfl
      · exact lerp_channel_bounds _ _ _ hBot.1 hBot.2.1 hTop.1 hTop.2.1 ht0 ht1
      · exact lerp_channel_bounds _ _ _ hBot.2.2.1 hBot.2.2.2.1 hTop.2.2.1 hTop.2.2.2.1 ht0 ht1
      · exact lerp_channel_bounds _ _ _ hBot.2.2.2.2.1 hBot.2.2.2.2.2 hTop.2.2.2.2.1
          hTop.2.2.2.2.2 ht0 ht1

lemma generate_eq_some (S : ℕ → ℝ) (radius : ℝ) (cTop cBottom : Color)
    (G count fuel : ℕ) (out : GenState)
    (h : generate S radius cTop cBottom G count fuel = some out) :
    out = genLoop S radius cTop cBottom G count fuel initState ∧
    out.positions.length = count * 3 := by
  unfold generate at h
  by_cases hc : (genLoop S radius cTop cBottom G count fuel initState).positions.length
      = count * 3
  · rw [if_pos hc] at h
    cases h
    exact ⟨rfl, hc⟩
  · rw [if_neg hc] at h
    cases h

lemma generate_one_accept (S : ℕ → ℝ) (cTop cBottom : Color) (G : ℕ) (h : S 3 = 0) :
    generate S 1 cTop cBottom G 1 1 = some (genStep S 1 cTop cBottom G initState) := by
  have hacc : ¬ S (initState.idx + 3) > sampleDensityProbability S 1 initState.idx := by
    have h3 : initState.idx + 3 = 3 := rfl
    rw [h3, h]
    exact not_lt.mpr (sampleDensityProbability_nonneg _ _ _)
  have hstep := genStep_accept S 1 cTop cBottom G initState hacc
  have hlen : (genStep S 1 cTop cBottom G initState).positions.length = 3 := by
    rw [hstep]
    simp [initState]
  unfold generate
  have hloop : genLoop S 1 cTop cBottom G 1 1 initState =
      genStep S 1 cTop cBottom G initState := by
    simp only [genLoop]
    rw [if_pos (by simp [initState] : initState.positions.length < 1 * 3)]
  rw [hloop, if_pos (by rw [hlen])]

/-! ## C2: exact count and radial band -/

/-- **C2.** Whenever the generator completes (the rejection-sampling
loop reaches its guard within the fuel), it returns position, color,
random, scale and glyph-index arrays for exactly `count` particles, and
every returned position has Euclidean norm in
`[0.95 * radius, 1.05 * radius]`.  (Completion itself is only
almost-sure: the source loop has no cap, see the no-cap theorem.) -/
theorem generate_count_and_radius (S : ℕ → ℝ) (radius : ℝ) (cTop cBottom : Color)
    (G count fuel : ℕ) (out : GenState)
    (hS : ∀ n, 0 ≤ S n ∧ S n < 1) (hR : 0 < radius) (_hcount : 0 < count)
    (h : generate S radius cTop cBottom G count fuel = some out) :
    out.positions.length = count * 3 ∧ out.colors.length = count * 3 ∧
    out.randoms.length = count * 3 ∧ out.scales.length = count ∧
    out.wordIndexes.length = count ∧
    ∀ i, i < count →
      0.95 * radius ≤ Real.sqrt ((out.positions.getD (3 * i) 0) ^ 2 +
        (out.positions.getD (3 * i + 1) 0) ^ 2 + (out.positions.getD (3 * i + 2) 0) ^ 2) ∧
      Real.sqrt ((out.positions.getD (3 * i) 0) ^ 2 + (out.positions.getD (3 * i + 1) 0) ^ 2 +
        (out.positions.getD (3 * i + 2) 0) ^ 2) ≤ 1.05 * radius := by
  obtain ⟨hout, hlen⟩ := generate_eq_some S radius cTop cBottom G count fuel out h
  have hinv : ArraysWF out ∧ PosOK radius out.positions := by
    rw [hout]
    refine genLoop_preserves S radius cTop cBottom G count
      (fun st => ArraysWF st ∧ PosOK radius st.positions) ?_ fuel initState ?_
    · intro st hst
      exact ⟨genStep_wf S radius cTop cBottom G st hst.1,
        genStep_posOK S radius cTop cBottom G st hS hR hst.1 hst.2⟩
    · constructor
      · exact ⟨rfl, rfl, rfl, rfl⟩
      · intro i hi
        simp [initState] at hi
  obtain ⟨hwf, hpos⟩ := hinv
  obtain ⟨hcol, hrand, hscale, hword⟩ := hwf
  refine ⟨hlen, by omega, by omega, by omega, by omega, ?_⟩
  intro i hi
  exact hpos i (by omega)

/-- Witness for C2: on the all-zeroes stream with `count = 1`,
`radius = 1` and fuel 1 the generator completes with a 3-entry position
buffer. -/
theorem generate_count_and_radius_witness :
    ((generate zeroStream 1 ⟨1, 1, 1⟩ ⟨0, 0, 0⟩ 2 1 1).getD initState).positions.length
      = 1 * 3 := by
  have heq := generate_one_accept zeroStream ⟨1, 1, 1⟩ ⟨0, 0, 0⟩ 2 rfl
  have hthm := (generate_count_and_radius zeroStream 1 ⟨1, 1, 1⟩ ⟨0, 0, 0⟩ 2 1 1 _
    (fun n => ⟨le_rfl, by simp [zeroStream]⟩) (by norm_num) (by norm_num) heq).1
  rw [heq, Option.getD_some]
  exact hthm

/-! ## C8: color-channel range -/

lemma sampleT_overshoot : sampleT overshootStream 1 0 = -(0.02 : ℝ) := by
  have h1 : overshootStream (0 + 1) = 0 := by simp [overshootStream]
  have h2 : overshootStream (0 + 2) = 0.9 := by simp [overshootStream]
  unfold sampleT sampleNormalizedY sampleY sampleR samplePhi
  rw [h1, h2]
  rw [show (2 : ℝ) * 0 - 1 = -1 by norm_num]
  rw [Real.cos_arccos (by norm_num) (by norm_num)]
  norm_num

/-- **C8 counterexample.** With top color `(1,1,1)` and bottom color
`(0,0,0)` (all channels in `[0,1]`), the stream drawing `u = v = 0`,
radial jitter `0.9` and acceptance draw `0` produces an accepted sample
at `y = -1.04 * radius`, so `t = (normalizedY + 1) / 2 = -0.02 ∉ [0,1]`
and the stored red channel is `-0.02 ∉ [0,1]`. -/
theorem generate_color_out_of_unit_range :
    (generate overshootStream 1 ⟨1, 1, 1⟩ ⟨0, 0, 0⟩ 2 1 1).isSome = true ∧
    ((generate overshootStream 1 ⟨1, 1, 1⟩ ⟨0, 0, 0⟩ 2 1 1).getD initState).colors.getD 0 0
      < 0 := by
  have heq := generate_one_accept overshootStream ⟨1, 1, 1⟩ ⟨0, 0, 0⟩ 2
    (by simp [overshootStream])
  constructor
  · rw [heq]
    rfl
  · rw [heq, Option.getD_some]
    have hacc : ¬ overshootStream (initState.idx + 3) >
        sampleDensityProbability overshootStream 1 initState.idx := by
      have h3 : overshootStream (initState.idx + 3) = 0 := by simp [overshootStream, initState]
      rw [h3]
      exact not_lt.mpr (sampleDensityProbability_nonneg _ _ _)
    rw [genStep_accept _ _ _ _ _ _ hacc]
    simp only [initState, List.nil_append, List.getD_cons_zero]
    show (0 : ℝ) + (1 - 0) * sampleT overshootStream 1 0 < 0
    rw [sampleT_overshoot]
    norm_num

/-- **C8 (amended).** With top and bottom channels in `[0,1]`, every
color component written to the color buffer lies in `[-0.025, 1.025]`;
the interpolation parameter `t = (normalizedY + 1) / 2` lies in
`[-0.025, 1.025]` for every accepted sample (the radial jitter lets
`|normalizedY|` reach up to `1.05`), and components can leave `[0,1]`
since the lerp does not clamp. -/
theorem generate_color_bounds (S : ℕ → ℝ) (radius : ℝ) (cTop cBottom : Color)
    (G count fuel : ℕ) (out : GenState)
    (hS : ∀ n, 0 ≤ S n ∧ S n < 1) (hR : 0 < radius)
    (hTop : 0 ≤ cTop.r ∧ cTop.r ≤ 1 ∧ 0 ≤ cTop.g ∧ cTop.g ≤ 1 ∧ 0 ≤ cTop.b ∧ cTop.b ≤ 1)
    (hBot : 0 ≤ cBottom.r ∧ cBottom.r ≤ 1 ∧ 0 ≤ cBottom.g ∧ cBottom.g ≤ 1 ∧
      0 ≤ cBottom.b ∧ cBottom.b ≤ 1)
    (h : generate S radius cTop cBottom G count fuel = some out) :
    ∀ c ∈ out.colors, -0.025 ≤ c ∧ c ≤ 1.025 := by
  obtain ⟨hout, _⟩ := generate_eq_some S radius cTop cBottom G count fuel out h
  have hcolors : ColorsOK out.colors := by
    rw [hout]
    refine genLoop_preserves S radius cTop cBottom G count
      (fun st => ColorsOK st.colors) ?_ fuel initState ?_
    · intro st hst
      exact genStep_colorsOK S radius cTop cBottom G st hS hR hTop hBot hst
    · intro c hc
      simp [initState] at hc
  exact hcolors

/-- Witness for C8: on the all-zeroes stream with unit-interval colors
the first stored channel obeys the `[-0.025, 1.025]` bound. -/
theorem generate_color_bounds_witness :
    -0.025 ≤ ((generate zeroStream 1 ⟨1, 1, 1⟩ ⟨0, 0, 0⟩ 2 1 1).getD initState).colors.getD 0 0 ∧
    ((generate zeroStream 1 ⟨1, 1, 1⟩ ⟨0, 0, 0⟩ 2 1 1).getD initState).colors.getD 0 0
      ≤ 1.025 := by
  have heq := generate_one_accept zeroStream ⟨1, 1, 1⟩ ⟨0, 0, 0⟩ 2 rfl
  have hbounds := generate_color_bounds zeroStream 1 ⟨1, 1, 1⟩ ⟨0, 0, 0⟩ 2 1 1 _
    (fun n => ⟨le_rfl, by simp [zeroStream]⟩) (by norm_num) (by norm_num) (by norm_num) heq
  have hacc : ¬ zeroStream (initState.idx + 3) >
      sampleDensityProbability zeroStream 1 initState.idx := by
    show ¬ (0 : ℝ) > sampleDensityProbability zeroStream 1 initState.idx
    exact not_lt.mpr (sampleDensityProbability_nonneg _ _ _)
  have hmem : ((genStep zeroStream 1 ⟨1, 1, 1⟩ ⟨0, 0, 0⟩ 2 initState).colors.getD 0 0) ∈
      (genStep zeroStream 1 ⟨1, 1, 1⟩ ⟨0, 0, 0⟩ 2 initState).colors := by
    rw [genStep_accept _ _ _ _ _ _ hacc]
    simp only [initState, List.nil_append, List.getD_cons_zero]
    exact List.mem_cons_self _ _
  rw [heq, Option.getD_some]
  exact hbounds _ hmem

/-! ## C1: absence of an iteration cap -/

lemma cos_samplePhi_constHalf (i : ℕ) : Real.cos (samplePhi constHalfStream i) = 0 := by
  unfold samplePhi constHalfStream
  rw [show (2 : ℝ) * (1 / 2) - 1 = 0 by norm_num]
  rw [Real.cos_arccos (by norm_num) (by norm_num)]

lemma genStep_constHalf (cTop cBottom : Color) (G : ℕ) (st : GenState) :
    genStep constHalfStream 1 cTop cBottom G st = { st with idx := st.idx + 4 } := by
  apply genStep_reject
  have hy : sampleNormalizedY constHalfStream 1 st.idx = 0 := by
    unfold sampleNormalizedY sampleY
    rw [cos_samplePhi_constHalf]
    simp
  have hp : sampleDensityProbability constHalfStream 1 st.idx = 0.25 := by
    unfold sampleDensityProbability sampleDensityVal
    rw [hy]
    rw [abs_zero, Real.zero_rpow (by norm_num : (2.5 : ℝ) ≠ 0)]
    norm_num
  rw [hp]
  show (0.25 : ℝ) < constHalfStream (st.idx + 3)
  unfold constHalfStream
  norm_num

lemma genLoop_constHalf_positions (cTop cBottom : Color) (G count : ℕ) :
    ∀ fuel (st : GenState), st.positions = [] →
      (genLoop constHalfStream 1 cTop cBottom G count fuel st).positions = [] := by
  intro fuel
  induction fuel with
  | zero =>
    intro st h
    simpa [genLoop] using h
  | succ n ih =>
    intro st h
    simp only [genLoop]
    by_cases hlt : st.positions.length < count * 3
    · rw [if_pos hlt, genStep_constHalf]
      exact ih _ h
    · rw [if_neg hlt]
      exact h

/-- **C1.** The generation loop has no iteration cap and no error path:
on the constant-`1/2` stream (every candidate rejected, acceptance
probability `0.25 < 1/2`) with `count = 1`, after ANY number of candidate
draws — in particular more than `50 × count` — the loop has accepted
nothing and is still running (`generate` never completes and never
surfaces any failure value; its only outcomes are a full buffer or
further iteration). -/
theorem generate_no_iteration_cap :
    ∀ fuel : ℕ,
      generate constHalfStream 1 ⟨1, 1, 1⟩ ⟨0, 0, 0⟩ 2 1 fuel = none ∧
      (genLoop constHalfStream 1 ⟨1, 1, 1⟩ ⟨0, 0, 0⟩ 2 1 fuel initState).positions.length
        = 0 := by
  intro fuel
  have hpos := genLoop_constHalf_positions ⟨1, 1, 1⟩ ⟨0, 0, 0⟩ 2 1 fuel initState rfl
  have hlen : (genLoop constHalfStream 1 ⟨1, 1, 1⟩ ⟨0, 0, 0⟩ 2 1 fuel
      initState).positions.length = 0 := by
    rw [hpos]
    rfl
  refine ⟨?_, hlen⟩
  unfold generate
  rw [if_neg (by rw [hlen]; norm_num)]
